import Mathlib

/-!
Shallow embedding of `scripts/release.py` (git-iris release script).

Strings are modelled as `List Char`.  The Python regexes used by the script
(`version\s*=\s*"(\d+\.\d+\.\d+)"`, `^\d+\.\d+\.\d+$`, and the ANSI-escape
stripper) are embedded as deterministic scanners: every character class in
those patterns is disjoint from the literal that follows it, so greedy
matching without backtracking coincides with Python's regex semantics.
`\d` and `\s` are modelled on their ASCII ranges (the Unicode extensions of
those classes never arise in the manifests and version strings the script
handles).
-/

namespace Release

/-- Models the regex atom `\d` (decimal digit). -/
def pyIsDigit (c : Char) : Bool := c.isDigit

/-- Models the regex atom `\s` (whitespace, ASCII subset). -/
def pyIsSpace (c : Char) : Bool :=
  c == ' ' || c == '\t' || c == '\n' || c == '\r' || c == '\x0b' || c == '\x0c'

/-- Consume an exact literal character sequence from the front of the input. -/
def stripPrefixChars : List Char → List Char → Option (List Char)
  | [], l => some l
  | _ :: _, [] => none
  | p :: ps, c :: cs => if c = p then stripPrefixChars ps cs else none

/-- Consume one specific character from the front of the input. -/
def expectChar (c : Char) : List Char → Option (List Char)
  | [] => none
  | x :: xs => if x = c then some xs else none

/-- Models `\d+`: consume a nonempty maximal run of digits. -/
def takeDigits (l : List Char) : Option (List Char × List Char) :=
  let d := l.takeWhile pyIsDigit
  if d.isEmpty then none else some (d, l.dropWhile pyIsDigit)

/-- The literal `version` from the extraction/substitution patterns. -/
def versionLit : List Char := ['v', 'e', 'r', 's', 'i', 'o', 'n']

/-- Models one attempt of the pattern `version\s*=\s*"(\d+\.\d+\.\d+)"` at the
head of the input.  On success returns the text matched by group 1 of the
substitution pattern (`version\s*=\s*`), the captured version string
(`\d+\.\d+\.\d+`), and the input remaining after the closing quote. -/
def matchVA (l : List Char) : Option (List Char × List Char × List Char) :=
  match stripPrefixChars versionLit l with
  | none => none
  | some r1 =>
    let ws1 := r1.takeWhile pyIsSpace
    match expectChar '=' (r1.dropWhile pyIsSpace) with
    | none => none
    | some r3 =>
      let ws2 := r3.takeWhile pyIsSpace
      match expectChar '"' (r3.dropWhile pyIsSpace) with
      | none => none
      | some r5 =>
        match takeDigits r5 with
        | none => none
        | some (d1, r6) =>
          match expectChar '.' r6 with
          | none => none
          | some r7 =>
            match takeDigits r7 with
            | none => none
            | some (d2, r8) =>
              match expectChar '.' r8 with
              | none => none
              | some r9 =>
                match takeDigits r9 with
                | none => none
                | some (d3, r10) =>
                  match expectChar '"' r10 with
                  | none => none
                  | some r11 =>
                    some (versionLit ++ ws1 ++ '=' :: ws2,
                          d1 ++ '.' :: d2 ++ '.' :: d3, r11)

/-- Models `re.search`: try the pattern at every start position, left to
right, and return the version captured by the first (leftmost) match. -/
def searchVersion : List Char → Option (List Char)
  | [] => none
  | c :: cs =>
    match matchVA (c :: cs) with
    | some t => some t.2.1
    | none => searchVersion cs

/-- Embeds `get_current_version`: search `Cargo.toml`'s text for
`version\s*=\s*"(\d+\.\d+\.\d+)"` and return the first capture (the
file-read and the error exit are handled by the caller model `runMain`). -/
def get_current_version (content : List Char) : Option (List Char) :=
  searchVersion content

/-- Fueled scan of `re.sub` over the text.  The Boolean argument tracks the
`MULTILINE` notion of "the scan position is at the start of a line"; the
fuel only makes the recursion structural (a successful match always
consumes at least one character, so fuel `l.length` is enough). -/
def subVersionF (v : List Char) : Nat → Bool → List Char → List Char
  | 0, _, l => l
  | fuel + 1, atStart, l =>
    match l, atStart with
    | [], _ => []
    | c :: cs, false => c :: subVersionF v fuel (decide (c = '\n')) cs
    | c :: cs, true =>
      match matchVA (c :: cs) with
      | some t => t.1 ++ '"' :: v ++ '"' :: subVersionF v fuel false t.2.2
      | none => c :: subVersionF v fuel (decide (c = '\n')) cs

/-- The `re.sub` scan with enough fuel for the whole input. -/
def subVersion (v : List Char) (atStart : Bool) (l : List Char) : List Char :=
  subVersionF v l.length atStart l

/-- Embeds `update_version`: `re.sub` of
`^(version\s*=\s*)"(\d+\.\d+\.\d+)"` (MULTILINE) with replacement
`\1"new_version"`, applied to the whole manifest text (every line-start
occurrence is rewritten). -/
def update_version (new_version : List Char) (content : List Char) : List Char :=
  subVersion new_version true content

/-- Embeds `is_valid_version`: `re.match(r"^\d+\.\d+\.\d+$", version)`.
Python's `$` (without MULTILINE) also matches just before one final
newline, which this embedding reproduces. -/
def is_valid_version (version : List Char) : Bool :=
  match takeDigits version with
  | none => false
  | some (_, r1) =>
    match expectChar '.' r1 with
    | none => false
    | some r2 =>
      match takeDigits r2 with
      | none => false
      | some (_, r3) =>
        match expectChar '.' r3 with
        | none => false
        | some r4 =>
          match takeDigits r4 with
          | none => false
          | some (_, r5) =>
            if r5 = [] then true else if r5 = ['\n'] then true else false

/-- A nonempty run of decimal digits (one `\d+` component). -/
def digitRun (d : List Char) : Prop := d ≠ [] ∧ ∀ c ∈ d, pyIsDigit c = true

/-- The text of a manifest line `version = "s"` (single spaces, as in the
round-trip scenario of the spec). -/
def verLine (s : List Char) : List Char :=
  versionLit ++ ' ' :: '=' :: ' ' :: '"' :: (s ++ ['"'])

/-- Whether the scan position right after text `a` is at the start of a line,
given that the position before `a` had line-start status `s`. -/
def atStartAfter (s : Bool) : List Char → Bool
  | [] => s
  | c :: cs => atStartAfter (decide (c = '\n')) cs

/-- Character class `[@-_]` (second byte of an ANSI escape sequence). -/
def isAnsiSecond (c : Char) : Bool := decide (0x40 ≤ c.toNat ∧ c.toNat ≤ 0x5F)

/-- Character class `[0-?]` (ANSI parameter bytes). -/
def isAnsiParam (c : Char) : Bool := decide (0x30 ≤ c.toNat ∧ c.toNat ≤ 0x3F)

/-- Character class of the ANSI intermediate bytes, `0x20` to `0x2F`. -/
def isAnsiInter (c : Char) : Bool := decide (0x20 ≤ c.toNat ∧ c.toNat ≤ 0x2F)

/-- Character class `[@-~]` (ANSI final byte). -/
def isAnsiFinal (c : Char) : Bool := decide (0x40 ≤ c.toNat ∧ c.toNat ≤ 0x7E)

/-- Models one attempt of the ANSI-escape pattern of `strip_ansi` (ESC, one
second byte, then parameter bytes, intermediate bytes, one final byte) at
the head of the input.  The character classes involved are pairwise
disjoint, so Python's greedy backtracking match is this deterministic scan.
Returns the input remaining after the matched escape sequence. -/
def matchAnsi : List Char → Option (List Char)
  | c :: c1 :: rest =>
    if c = '\x1b' then
      if isAnsiSecond c1 then
        match (rest.dropWhile isAnsiParam).dropWhile isAnsiInter with
        | f :: r3 => if isAnsiFinal f then some r3 else none
        | [] => none
      else none
    else none
  | _ => none

/-- Fueled scan of `strip_ansi`'s `re.sub` (the fuel only makes the
recursion structural; a match always consumes at least one character). -/
def strip_ansiF : Nat → List Char → List Char
  | 0, l => l
  | fuel + 1, l =>
    match l with
    | [] => []
    | c :: cs =>
      match matchAnsi (c :: cs) with
      | some rest => strip_ansiF fuel rest
      | none => c :: strip_ansiF fuel cs

/-- Embeds `strip_ansi`: `re.sub` of the ANSI-escape pattern with the empty
replacement (every escape sequence is deleted, all other characters kept). -/
def strip_ansi (l : List Char) : List Char := strip_ansiF l.length l

/-- Modelled from the `wcwidth` library used by `center_text`: width `none`
stands for the library's `-1` (nonprintable character), `some 0` for
zero-width characters, `some 2` for wide East-Asian/emoji ranges (abridged
to the ranges relevant to terminal text), `some 1` otherwise. -/
def wcwidthChar (c : Char) : Option Nat :=
  let n := c.toNat
  if n = 0 then some 0
  else if n < 0x20 then none
  else if 0x7F ≤ n ∧ n < 0xA0 then none
  else if 0x300 ≤ n ∧ n ≤ 0x36F then some 0
  else if (0x1100 ≤ n ∧ n ≤ 0x115F) ∨ (0x2E80 ≤ n ∧ n ≤ 0x303E) ∨
      (0x3041 ≤ n ∧ n ≤ 0x33FF) ∨ (0x3400 ≤ n ∧ n ≤ 0x4DBF) ∨
      (0x4E00 ≤ n ∧ n ≤ 0x9FFF) ∨ (0xA000 ≤ n ∧ n ≤ 0xA4CF) ∨
      (0xAC00 ≤ n ∧ n ≤ 0xD7A3) ∨ (0xF900 ≤ n ∧ n ≤ 0xFAFF) ∨
      (0xFE30 ≤ n ∧ n ≤ 0xFE4F) ∨ (0xFF00 ≤ n ∧ n ≤ 0xFF60) ∨
      (0xFFE0 ≤ n ∧ n ≤ 0xFFE6) ∨ (0x1F300 ≤ n ∧ n ≤ 0x1F64F) ∨
      (0x20000 ≤ n ∧ n ≤ 0x2FFFD) then some 2
  else some 1

/-- Modelled from the `wcwidth` library: `wcswidth` sums per-character
widths and yields `none` (the library's `-1`) when any character is
nonprintable. -/
def wcswidth : List Char → Option Nat
  | [] => some 0
  | c :: cs =>
    match wcwidthChar c with
    | none => none
    | some w =>
      match wcswidth cs with
      | none => none
      | some ws => some (w + ws)

/-- Python `' ' * n` for a possibly negative computed count. -/
def spacesOf (n : Int) : List Char := List.replicate n.toNat ' '

/-- Python `wcswidth(strip_ansi(text))`: `-1` for nonprintable content. -/
def pyVisibleLen (text : List Char) : Int :=
  match wcswidth (strip_ansi text) with
  | none => -1
  | some n => n

/-- Embeds `center_text` (`//` is Python floor division, hence `Int.fdiv`;
`padding = (width - visible_length) // 2` is inlined). -/
def center_text (text : List Char) (width : Int) : List Char :=
  spacesOf ((width - pyVisibleLen text).fdiv 2) ++ text ++
    spacesOf (width - (width - pyVisibleLen text).fdiv 2 - pyVisibleLen text)

/-- The gradient color stops of the banner (`GRADIENT_COLORS`). -/
def GRADIENT_COLORS : List (Nat × Nat × Nat) :=
  [(138, 43, 226), (75, 0, 130), (0, 191, 255), (30, 144, 255),
   (138, 43, 226), (75, 0, 130), (0, 191, 255)]

/-- One interpolated gradient entry:
`int(start * (1 - t) + end * t)` componentwise with `t = j / steps`.
Python's float arithmetic is modelled exactly over the rationals; `int()`
truncation coincides with the floor (hence `Nat` division) because all the
interpolated values are nonnegative. -/
def gradColor (startC endC : Nat × Nat × Nat) (j steps : Nat) : Nat × Nat × Nat :=
  ((startC.1 * (steps - j) + endC.1 * j) / steps,
   (startC.2.1 * (steps - j) + endC.2.1 * j) / steps,
   (startC.2.2 * (steps - j) + endC.2.2 * j) / steps)

/-- Embeds `generate_gradient`: for each adjacent pair of colors, emit
`steps_per_segment = max 1 (steps / segments)` interpolated colors at
`t = j / steps_per_segment`, `j = 0 .. steps_per_segment - 1`.  Each
emitted triple renders to exactly one ANSI color code string. -/
def generate_gradient (colors : List (Nat × Nat × Nat)) (steps : Nat) :
    List (Nat × Nat × Nat) :=
  let segments := colors.length - 1
  let steps_per_segment := max 1 (steps / segments)
  (List.range segments).flatMap (fun i =>
    (List.range steps_per_segment).map (fun j =>
      gradColor (colors.getD i (0, 0, 0)) (colors.getD (i + 1) (0, 0, 0))
        j steps_per_segment))

/-- Models Python `str.lower` on the confirmation input (only the ASCII
letters matter for the comparison against `"y"`). -/
def pyLower (l : List Char) : List Char := l.map Char.toLower

/-- The external world as `main` observes it: which tools resolve, what the
git commands report, the manifest text, the two interactive inputs, and the
exit status of each subsequent external command. -/
structure Env where
  gitInstalled : Bool
  cargoInstalled : Bool
  branch : List Char
  dirty : Bool
  cargoToml : List Char
  versionInput : List Char
  cargoCheckOk : Bool
  cargoTestOk : Bool
  confirmInput : List Char
  gitAddOk : Bool
  gitCommitOk : Bool
  gitPushOk : Bool
  gitTagOk : Bool
  gitPushTagsOk : Bool

/-- Observable outcome of one run of `main`: process exit code, the manifest
content on exit, and which prompts/commands were reached (`ranCommit` etc.
record that the corresponding git command was invoked; `commitMsg` and
`tagName` record the arguments it was invoked with). -/
structure Outcome where
  exitCode : Nat
  cargoToml : List Char
  promptedVersion : Bool
  updateCalled : Bool
  ranChecks : Bool
  ranCommit : Bool
  ranPush : Bool
  ranTag : Bool
  ranPushTags : Bool
  commitMsg : Option (List Char)
  tagName : Option (List Char)

/-- Outcome of the failure paths that abort before the version prompt
(`sys.exit(1)` in `check_tool_installed`, `check_branch`,
`check_uncommitted_changes`, or `get_current_version`). -/
def failEarly (e : Env) : Outcome :=
  ⟨1, e.cargoToml, false, false, false, false, false, false, false, none, none⟩

/-- The commit message `":rocket: Release version {version}"`. -/
def commitMessageFor (v : List Char) : List Char :=
  ":rocket: Release version ".toList ++ v

/-- Embeds `main`: the linear sequence of checks and side effects of the
release script, as a function of the external world.  Each `sys.exit(1)`
(including the uncaught `CalledProcessError` from `run_checks`, which makes
the interpreter exit with status 1) is an early return with exit code 1. -/
def runMain (env : Env) : Outcome :=
  if env.gitInstalled = false then failEarly env
  else if env.cargoInstalled = false then failEarly env
  else if ¬ env.branch = "main".toList then failEarly env
  else if env.dirty = true then failEarly env
  else if (get_current_version env.cargoToml).isSome = false then failEarly env
  else if is_valid_version env.versionInput = false then
    ⟨1, env.cargoToml, true, false, false, false, false, false, false, none, none⟩
  else if env.cargoCheckOk = false then
    ⟨1, update_version env.versionInput env.cargoToml,
      true, true, true, false, false, false, false, none, none⟩
  else if env.cargoTestOk = false then
    ⟨1, update_version env.versionInput env.cargoToml,
      true, true, true, false, false, false, false, none, none⟩
  else if ¬ pyLower env.confirmInput = "y".toList then
    ⟨1, update_version env.versionInput env.cargoToml,
      true, true, true, false, false, false, false, none, none⟩
  else if env.gitAddOk = false then
    ⟨1, update_version env.versionInput env.cargoToml,
      true, true, true, false, false, false, false, none, none⟩
  else if env.gitCommitOk = false then
    ⟨1, update_version env.versionInput env.cargoToml,
      true, true, true, true, false, false, false,
      some (commitMessageFor env.versionInput), none⟩
  else if env.gitPushOk = false then
    ⟨1, update_version env.versionInput env.cargoToml,
      true, true, true, true, true, false, false,
      some (commitMessageFor env.versionInput), none⟩
  else if env.gitTagOk = false then
    ⟨1, update_version env.versionInput env.cargoToml,
      true, true, true, true, true, true, false,
      some (commitMessageFor env.versionInput), some ('v' :: env.versionInput)⟩
  else if env.gitPushTagsOk = false then
    ⟨1, update_version env.versionInput env.cargoToml,
      true, true, true, true, true, true, true,
      some (commitMessageFor env.versionInput), some ('v' :: env.versionInput)⟩
  else
    ⟨0, update_version env.versionInput env.cargoToml,
      true, true, true, true, true, true, true,
      some (commitMessageFor env.versionInput), some ('v' :: env.versionInput)⟩

/-- All the conditions the release needs in order to succeed. -/
def releaseSucceeds (env : Env) : Prop :=
  env.gitInstalled = true ∧ env.cargoInstalled = true ∧
  env.branch = "main".toList ∧ env.dirty = false ∧
  (get_current_version env.cargoToml).isSome = true ∧
  is_valid_version env.versionInput = true ∧
  env.cargoCheckOk = true ∧ env.cargoTestOk = true ∧
  pyLower env.confirmInput = "y".toList ∧
  env.gitAddOk = true ∧ env.gitCommitOk = true ∧ env.gitPushOk = true ∧
  env.gitTagOk = true ∧ env.gitPushTagsOk = true

/-- Scenario environment: clean checkout, manifest at 1.2.3, operator
supplies the invalid version `1.3`. -/
def envC3 : Env :=
  ⟨true, true, "main".toList, false, "version = \"1.2.3\"".toList,
   "1.3".toList, true, true, "y".toList, true, true, true, true, true⟩

/-- Scenario environment: uncommitted changes present. -/
def envC4 : Env :=
  ⟨true, true, "main".toList, true, "version = \"1.2.3\"".toList,
   "1.3.0".toList, true, true, "y".toList, true, true, true, true, true⟩

/-- Scenario environment: everything fine up to the confirmation prompt,
where the operator answers `n`. -/
def envC8 : Env :=
  ⟨true, true, "main".toList, false, "version = \"1.2.3\"".toList,
   "1.3.0".toList, true, true, "n".toList, true, true, true, true, true⟩

/-- Manifest text with a single mid-file version line (C1 counterexample). -/
def badToml : List Char := "x version = \"9.9.9\"\nversion = \"1.2.3\"".toList

/-- Manifest prefix used to instantiate the C1 round-trip law. -/
def preC1 : List Char := "[package]\n".toList

/-- Manifest suffix used to instantiate the C1 round-trip law. -/
def postC1 : List Char := "\nedition = \"2021\"".toList

/-- The manifest of the C7 release scenario. -/
def demoToml : List Char :=
  "[package]\nname = \"git-iris\"\nversion = \"1.2.3\"\nedition = \"2021\"\n".toList

/-- The C7 manifest after the release. -/
def demoTomlNew : List Char :=
  "[package]\nname = \"git-iris\"\nversion = \"1.3.0\"\nedition = \"2021\"\n".toList

/-- The C7 scenario environment. -/
def envC7 : Env :=
  ⟨true, true, "main".toList, false, demoToml, "1.3.0".toList, true, true,
   "y".toList, true, true, true, true, true⟩

/-- Text with a mid-line match first and two line-start assignments (C9). -/
def demo9 : List Char :=
  "x version = \"9.9.9\"\nversion = \"1.2.3\"\nversion = \"4.5.6\"\n".toList

/-- The C9 text after `update_version "7.7.7"`: both line-start assignment
lines are rewritten, while the mid-line occurrence is untouched. -/
def demo9sub : List Char :=
  "x version = \"9.9.9\"\nversion = \"7.7.7\"\nversion = \"7.7.7\"\n".toList

theorem stripPrefixChars_length {ps l r : List Char}
    (h : stripPrefixChars ps l = some r) : r.length + ps.length = l.length := by
  induction ps generalizing l with
  | nil =>
    simp [stripPrefixChars] at h
    simp [h]
  | cons p ps ih =>
    cases l with
    | nil => simp [stripPrefixChars] at h
    | cons c cs =>
      by_cases hc : c = p
      · simp [stripPrefixChars, hc] at h
        have := ih h
        simp [List.length_cons]
        omega
      · simp [stripPrefixChars, hc] at h

theorem expectChar_eq {c : Char} {l r : List Char}
    (h : expectChar c l = some r) : l = c :: r := by
  cases l with
  | nil => simp [expectChar] at h
  | cons x xs =>
    by_cases hx : x = c
    · simp [expectChar, hx] at h
      simp [hx, h]
    · simp [expectChar, hx] at h

theorem takeDigits_eq {l d r : List Char}
    (h : takeDigits l = some (d, r)) :
    d ≠ [] ∧ (∀ c ∈ d, pyIsDigit c = true) ∧ l = d ++ r := by
  unfold takeDigits at h
  by_cases he : (l.takeWhile pyIsDigit).isEmpty
  · simp [he] at h
  · simp [he] at h
    obtain ⟨hd, hr⟩ := h
    subst hd; subst hr
    refine ⟨by simpa [List.isEmpty_iff] using he, ?_, ?_⟩
    · intro c hc
      exact List.mem_takeWhile_imp hc
    · exact (List.takeWhile_append_dropWhile pyIsDigit l).symm

theorem takeDigits_length {l d r : List Char}
    (h : takeDigits l = some (d, r)) : r.length < l.length := by
  obtain ⟨hne, _, hl⟩ := takeDigits_eq h
  subst hl
  have : 0 < d.length := List.length_pos.mpr hne
  simp [List.length_append]
  omega

theorem matchVA_length {l : List Char} {t : List Char × List Char × List Char}
    (h : matchVA l = some t) : t.2.2.length < l.length := by
  unfold matchVA at h
  cases h1 : stripPrefixChars versionLit l with
  | none => simp [h1] at h
  | some r1 =>
    simp only [h1] at h
    cases h2 : expectChar '=' (r1.dropWhile pyIsSpace) with
    | none => simp [h2] at h
    | some r3 =>
      simp only [h2] at h
      cases h3 : expectChar '"' (r3.dropWhile pyIsSpace) with
      | none => simp [h3] at h
      | some r5 =>
        simp only [h3] at h
        cases h4 : takeDigits r5 with
        | none => simp [h4] at h
        | some p1 =>
          obtain ⟨d1, r6⟩ := p1
          simp only [h4] at h
          cases h5 : expectChar '.' r6 with
          | none => simp [h5] at h
          | some r7 =>
            simp only [h5] at h
            cases h6 : takeDigits r7 with
            | none => simp [h6] at h
            | some p2 =>
              obtain ⟨d2, r8⟩ := p2
              simp only [h6] at h
              cases h7 : expectChar '.' r8 with
              | none => simp [h7] at h
              | some r9 =>
                simp only [h7] at h
                cases h8 : takeDigits r9 with
                | none => simp [h8] at h
                | some p3 =>
                  obtain ⟨d3, r10⟩ := p3
                  simp only [h8] at h
                  cases h9 : expectChar '"' r10 with
                  | none => simp [h9] at h
                  | some r11 =>
                    simp only [h9, Option.some.injEq] at h
                    subst h
                    have l1 := stripPrefixChars_length h1
                    have l2 : r1.dropWhile pyIsSpace = '=' :: r3 := expectChar_eq h2
                    have l2' : r3.length < r1.length := by
                      have := (List.dropWhile_sublist (l := r1) pyIsSpace).length_le
                      rw [l2] at this
                      simp at this
                      omega
                    have l3 : r3.dropWhile pyIsSpace = '"' :: r5 := expectChar_eq h3
                    have l3' : r5.length < r3.length := by
                      have := (List.dropWhile_sublist (l := r3) pyIsSpace).length_le
                      rw [l3] at this
                      simp at this
                      omega
                    have l4 := takeDigits_length h4
                    have l5 := expectChar_eq h5
                    have l5' : r7.length < r6.length := by rw [l5]; simp
                    have l6 := takeDigits_length h6
                    have l7 := expectChar_eq h7
                    have l7' : r9.length < r8.length := by rw [l7]; simp
                    have l8 := takeDigits_length h8
                    have l9 := expectChar_eq h9
                    have l9' : r11.length < r10.length := by rw [l9]; simp
                    simp only []
                    omega

theorem subVersionF_congr (v : List Char) :
    ∀ fuel fuel' (s : Bool) (l : List Char), l.length ≤ fuel → l.length ≤ fuel' →
      subVersionF v fuel s l = subVersionF v fuel' s l := by
  intro fuel
  induction fuel with
  | zero =>
    intro fuel' s l hl _
    have hnil : l = [] := by
      cases l with
      | nil => rfl
      | cons c cs => simp at hl
    subst hnil
    cases fuel' <;> rfl
  | succ k ih =>
    intro fuel' s l hl hl'
    cases fuel' with
    | zero =>
      have hnil : l = [] := by
        cases l with
        | nil => rfl
        | cons c cs => simp at hl'
      subst hnil
      rfl
    | succ k' =>
      cases l with
      | nil => rfl
      | cons c cs =>
        have hk : cs.length ≤ k := by simp at hl; omega
        have hk' : cs.length ≤ k' := by simp at hl'; omega
        cases s with
        | false =>
          simp only [subVersionF]
          rw [ih k' (decide (c = '\n')) cs hk hk']
        | true =>
          cases hm : matchVA (c :: cs) with
          | some t =>
            have hlen := matchVA_length hm
            simp only [List.length_cons] at hlen
            simp only [subVersionF, hm]
            rw [ih k' false t.2.2 (by omega) (by omega)]
          | none =>
            simp only [subVersionF, hm]
            rw [ih k' (decide (c = '\n')) cs hk hk']

theorem stripPrefixChars_self (a : List Char) : ∀ t, stripPrefixChars a (a ++ t) = some t := by
  induction a with
  | nil => intro t; simp [stripPrefixChars]
  | cons c cs ih => intro t; simp [stripPrefixChars, ih]

theorem expectChar_cons_self (c : Char) (t : List Char) :
    expectChar c (c :: t) = some t := by
  simp [expectChar]

theorem takeDigits_append {X : List Char} (hne : X ≠ [])
    (hX : ∀ c ∈ X, pyIsDigit c = true) {b : Char} (hb : pyIsDigit b = false)
    (t : List Char) : takeDigits (X ++ b :: t) = some (X, b :: t) := by
  unfold takeDigits
  rw [List.takeWhile_append_of_pos hX, List.dropWhile_append_of_pos hX,
    List.takeWhile_cons_of_neg (by simp [hb]), List.dropWhile_cons_of_neg (by simp [hb])]
  simp [List.isEmpty_iff, hne]

theorem takeDigits_all {X : List Char} (hne : X ≠ [])
    (hX : ∀ c ∈ X, pyIsDigit c = true) : takeDigits X = some (X, []) := by
  unfold takeDigits
  have h1 := @List.takeWhile_append_of_pos Char pyIsDigit X [] hX
  have h2 := @List.dropWhile_append_of_pos Char pyIsDigit X [] hX
  simp only [List.append_nil, List.takeWhile_nil, List.dropWhile_nil] at h1 h2
  rw [h1, h2]
  simp [List.isEmpty_iff, hne]

theorem takeWhile_space_eq_sp (t : List Char) :
    List.takeWhile pyIsSpace (' ' :: '=' :: t) = [' '] := by
  rw [List.takeWhile_cons_of_pos (by decide), List.takeWhile_cons_of_neg (by decide)]

theorem dropWhile_space_eq_sp (t : List Char) :
    List.dropWhile pyIsSpace (' ' :: '=' :: t) = '=' :: t := by
  rw [List.dropWhile_cons_of_pos (by decide), List.dropWhile_cons_of_neg (by decide)]

theorem takeWhile_space_quote_sp (t : List Char) :
    List.takeWhile pyIsSpace (' ' :: '"' :: t) = [' '] := by
  rw [List.takeWhile_cons_of_pos (by decide), List.takeWhile_cons_of_neg (by decide)]

theorem dropWhile_space_quote_sp (t : List Char) :
    List.dropWhile pyIsSpace (' ' :: '"' :: t) = '"' :: t := by
  rw [List.dropWhile_cons_of_pos (by decide), List.dropWhile_cons_of_neg (by decide)]

theorem matchVA_verLine {X Y Z : List Char} (hX : digitRun X) (hY : digitRun Y)
    (hZ : digitRun Z) (rest : List Char) :
    matchVA (verLine (X ++ '.' :: Y ++ '.' :: Z) ++ rest) =
      some (versionLit ++ ' ' :: '=' :: [' '], X ++ '.' :: Y ++ '.' :: Z, rest) := by
  obtain ⟨hXne, hXd⟩ := hX
  obtain ⟨hYne, hYd⟩ := hY
  obtain ⟨hZne, hZd⟩ := hZ
  have hdot : pyIsDigit '.' = false := by decide
  have hqd : pyIsDigit '"' = false := by decide
  unfold matchVA verLine
  simp only [List.append_assoc, List.cons_append]
  simp only [stripPrefixChars_self]
  simp only [takeWhile_space_eq_sp, dropWhile_space_eq_sp, expectChar_cons_self]
  simp only [takeWhile_space_quote_sp, dropWhile_space_quote_sp, expectChar_cons_self]
  simp only [takeDigits_append hXne hXd hdot, expectChar_cons_self]
  simp only [takeDigits_append hYne hYd hdot, expectChar_cons_self]
  simp only [takeDigits_append hZne hZd hqd, expectChar_cons_self]
  simp [List.append_assoc]

theorem searchVersion_cons_some {c : Char} {cs : List Char}
    {t : List Char × List Char × List Char} (h : matchVA (c :: cs) = some t) :
    searchVersion (c :: cs) = some t.2.1 := by
  simp [searchVersion, h]

theorem searchVersion_cons_none {c : Char} {cs : List Char}
    (h : matchVA (c :: cs) = none) : searchVersion (c :: cs) = searchVersion cs := by
  simp [searchVersion, h]

theorem searchVersion_append_of_none {a b : List Char}
    (h : ∀ j < a.length, matchVA (List.drop j (a ++ b)) = none) :
    searchVersion (a ++ b) = searchVersion b := by
  induction a with
  | nil => simp
  | cons c cs ih =>
    have h0 := h 0 (by simp)
    rw [List.drop_zero, List.cons_append] at h0
    rw [List.cons_append, searchVersion_cons_none h0]
    refine ih (fun j hj => ?_)
    have := h (j + 1) (by simp; omega)
    rwa [List.cons_append, List.drop_succ_cons] at this

theorem searchVersion_of_match {l : List Char} {t : List Char × List Char × List Char}
    (h : matchVA l = some t) : searchVersion l = some t.2.1 := by
  cases l with
  | nil => simp [matchVA, stripPrefixChars, versionLit] at h
  | cons c cs => exact searchVersion_cons_some h

theorem subVersion_nil (v : List Char) (s : Bool) : subVersion v s [] = [] := rfl

theorem subVersion_cons_false (v : List Char) (c : Char) (cs : List Char) :
    subVersion v false (c :: cs) = c :: subVersion v (decide (c = '\n')) cs := by
  unfold subVersion
  simp only [List.length_cons, subVersionF]

theorem subVersion_cons_match {c : Char} {cs : List Char}
    {t : List Char × List Char × List Char} (v : List Char)
    (h : matchVA (c :: cs) = some t) :
    subVersion v true (c :: cs) = t.1 ++ '"' :: v ++ '"' :: subVersion v false t.2.2 := by
  unfold subVersion
  simp only [List.length_cons, subVersionF, h]
  have hlen := matchVA_length h
  simp only [List.length_cons] at hlen
  rw [subVersionF_congr v cs.length t.2.2.length false t.2.2 (by omega) (by omega)]

theorem subVersion_cons_none_true {c : Char} {cs : List Char} (v : List Char)
    (h : matchVA (c :: cs) = none) :
    subVersion v true (c :: cs) = c :: subVersion v (decide (c = '\n')) cs := by
  unfold subVersion
  simp only [List.length_cons, subVersionF, h]

theorem atStartAfter_cons (s : Bool) (c : Char) (a : List Char) :
    atStartAfter s (c :: a) = atStartAfter (decide (c = '\n')) a := rfl

theorem atStartAfter_concat (s : Bool) (a : List Char) (c : Char) :
    atStartAfter s (a ++ [c]) = decide (c = '\n') := by
  induction a generalizing s with
  | nil => rfl
  | cons d t ih => rw [List.cons_append, atStartAfter_cons, ih]

theorem matchVA_nil : matchVA [] = none := rfl

theorem subVersion_of_match {l : List Char} {t : List Char × List Char × List Char}
    (v : List Char) (h : matchVA l = some t) :
    subVersion v true l = t.1 ++ '"' :: v ++ '"' :: subVersion v false t.2.2 := by
  cases l with
  | nil => simp [matchVA_nil] at h
  | cons c cs => exact subVersion_cons_match v h

theorem subVersion_append_copy {v a b : List Char}
    (h : ∀ j < a.length, matchVA (List.drop j (a ++ b)) = none) (s : Bool) :
    subVersion v s (a ++ b) = a ++ subVersion v (atStartAfter s a) b := by
  induction a generalizing s with
  | nil => simp [atStartAfter]
  | cons c cs ih =>
    have h0 := h 0 (by simp)
    rw [List.drop_zero, List.cons_append] at h0
    have hrec : ∀ j < cs.length, matchVA (List.drop j (cs ++ b)) = none := by
      intro j hj
      have := h (j + 1) (by simp; omega)
      rwa [List.cons_append, List.drop_succ_cons] at this
    have step : subVersion v s (c :: (cs ++ b)) =
        c :: subVersion v (decide (c = '\n')) (cs ++ b) := by
      cases s with
      | false => exact subVersion_cons_false v c (cs ++ b)
      | true => exact subVersion_cons_none_true v h0
    rw [List.cons_append, step, ih hrec, atStartAfter_cons]
    simp

theorem subVersion_of_no_match {v b : List Char}
    (h : ∀ j < b.length, matchVA (List.drop j b) = none) (s : Bool) :
    subVersion v s b = b := by
  induction b generalizing s with
  | nil => exact subVersion_nil v s
  | cons c cs ih =>
    have h0 := h 0 (by simp)
    rw [List.drop_zero] at h0
    have hrec : ∀ j < cs.length, matchVA (List.drop j cs) = none := by
      intro j hj
      have := h (j + 1) (by simp; omega)
      rwa [List.drop_succ_cons] at this
    have step : subVersion v s (c :: cs) = c :: subVersion v (decide (c = '\n')) cs := by
      cases s with
      | false => exact subVersion_cons_false v c cs
      | true => exact subVersion_cons_none_true v h0
    rw [step, ih hrec]

theorem is_valid_version_iff (s : List Char) :
    is_valid_version s = true ↔
      ∃ a b c : List Char, digitRun a ∧ digitRun b ∧ digitRun c ∧
        (s = a ++ '.' :: b ++ '.' :: c ∨ s = a ++ '.' :: b ++ '.' :: c ++ ['\n']) := by
  constructor
  · intro h
    unfold is_valid_version at h
    cases h1 : takeDigits s with
    | none =>
      simp only [h1] at h
      exact Bool.noConfusion h
    | some p1 =>
      obtain ⟨d1, r1⟩ := p1
      simp only [h1] at h
      obtain ⟨hd1ne, hd1d, hs1⟩ := takeDigits_eq h1
      cases h2 : expectChar '.' r1 with
      | none =>
        simp only [h2] at h
        exact Bool.noConfusion h
      | some r2 =>
        simp only [h2] at h
        have hr1 : r1 = '.' :: r2 := expectChar_eq h2
        cases h3 : takeDigits r2 with
        | none =>
          simp only [h3] at h
          exact Bool.noConfusion h
        | some p2 =>
          obtain ⟨d2, r3⟩ := p2
          simp only [h3] at h
          obtain ⟨hd2ne, hd2d, hs2⟩ := takeDigits_eq h3
          cases h4 : expectChar '.' r3 with
          | none =>
            simp only [h4] at h
            exact Bool.noConfusion h
          | some r4 =>
            simp only [h4] at h
            have hr3 : r3 = '.' :: r4 := expectChar_eq h4
            cases h5 : takeDigits r4 with
            | none =>
              simp only [h5] at h
              exact Bool.noConfusion h
            | some p3 =>
              obtain ⟨d3, r5⟩ := p3
              simp only [h5] at h
              obtain ⟨hd3ne, hd3d, hs3⟩ := takeDigits_eq h5
              refine ⟨d1, d2, d3, ⟨hd1ne, hd1d⟩, ⟨hd2ne, hd2d⟩, ⟨hd3ne, hd3d⟩, ?_⟩
              by_cases e1 : r5 = []
              · left
                subst e1
                rw [hs1, hr1, hs2, hr3, hs3]
                simp
              · by_cases e2 : r5 = ['\n']
                · right
                  subst e2
                  rw [hs1, hr1, hs2, hr3, hs3]
                  simp
                · rw [if_neg e1, if_neg e2] at h
                  exact Bool.noConfusion h
  · rintro ⟨a, b, c, ⟨hane, had⟩, ⟨hbne, hbd⟩, ⟨hcne, hcd⟩, hs | hs⟩ <;> subst hs
    · unfold is_valid_version
      simp [takeDigits_append hane had (by decide : pyIsDigit '.' = false),
        expectChar_cons_self,
        takeDigits_append hbne hbd (by decide : pyIsDigit '.' = false),
        takeDigits_all hcne hcd]
    · unfold is_valid_version
      have hshape : a ++ '.' :: b ++ '.' :: c ++ ['\n'] =
          a ++ '.' :: (b ++ '.' :: (c ++ '\n' :: ([] : List Char))) := by
        simp
      rw [hshape]
      simp [takeDigits_append hane had (by decide : pyIsDigit '.' = false),
        expectChar_cons_self,
        takeDigits_append hbne hbd (by decide : pyIsDigit '.' = false),
        takeDigits_append hcne hcd (by decide : pyIsDigit '\n' = false)]

theorem searchVersion_eq_first (content : List Char) :
    searchVersion content =
      ((List.range content.length).filterMap
        (fun i => (matchVA (content.drop i)).map (fun t => t.2.1))).head? := by
  induction content with
  | nil => rfl
  | cons c cs ih =>
    rw [List.length_cons, List.range_succ_eq_map]
    cases hm : matchVA (c :: cs) with
    | some t =>
      rw [searchVersion_cons_some hm]
      simp [List.filterMap_cons, hm]
    | none =>
      rw [searchVersion_cons_none hm, ih]
      simp only [List.filterMap_cons, List.drop_zero, hm, Option.map_none']
      rw [List.filterMap_map]
      congr 1

theorem matchAnsi_length {l r : List Char} (h : matchAnsi l = some r) :
    r.length < l.length := by
  match l with
  | [] => simp [matchAnsi] at h
  | [c] => simp [matchAnsi] at h
  | c :: c1 :: rest =>
    by_cases h1 : c = '\x1b'
    · by_cases h2 : isAnsiSecond c1
      · simp only [matchAnsi, h1, h2, if_true] at h
        cases h3 : (rest.dropWhile isAnsiParam).dropWhile isAnsiInter with
        | nil => rw [h3] at h; simp at h
        | cons f r3 =>
          rw [h3] at h
          by_cases h4 : isAnsiFinal f
          · simp [h4] at h
            subst h
            have e1 := (List.dropWhile_sublist (l := rest) isAnsiParam).length_le
            have e2 := (List.dropWhile_sublist
              (l := rest.dropWhile isAnsiParam) isAnsiInter).length_le
            rw [h3] at e2
            simp at e2
            simp
            omega
          · simp [h4] at h
      · simp [matchAnsi, h1, h2] at h
    · simp [matchAnsi, h1] at h

theorem matchAnsi_ne_esc {c : Char} (t : List Char) (h : c ≠ '\x1b') :
    matchAnsi (c :: t) = none := by
  cases t with
  | nil => rfl
  | cons c1 rest => simp [matchAnsi, h]

theorem strip_ansiF_congr :
    ∀ fuel fuel' (l : List Char), l.length ≤ fuel → l.length ≤ fuel' →
      strip_ansiF fuel l = strip_ansiF fuel' l := by
  intro fuel
  induction fuel with
  | zero =>
    intro fuel' l hl _
    have hnil : l = [] := by
      cases l with
      | nil => rfl
      | cons c cs => simp at hl
    subst hnil
    cases fuel' <;> rfl
  | succ k ih =>
    intro fuel' l hl hl'
    cases fuel' with
    | zero =>
      have hnil : l = [] := by
        cases l with
        | nil => rfl
        | cons c cs => simp at hl'
      subst hnil
      rfl
    | succ k' =>
      cases l with
      | nil => rfl
      | cons c cs =>
        have hk : cs.length ≤ k := by simp at hl; omega
        have hk' : cs.length ≤ k' := by simp at hl'; omega
        cases hm : matchAnsi (c :: cs) with
        | some rest =>
          have hlen := matchAnsi_length hm
          simp only [List.length_cons] at hlen
          simp only [strip_ansiF, hm]
          rw [ih k' rest (by omega) (by omega)]
        | none =>
          simp only [strip_ansiF, hm]
          rw [ih k' cs hk hk']

theorem strip_ansi_nil : strip_ansi [] = [] := rfl

theorem strip_ansi_cons_some {c : Char} {cs rest : List Char}
    (h : matchAnsi (c :: cs) = some rest) :
    strip_ansi (c :: cs) = strip_ansi rest := by
  unfold strip_ansi
  simp only [List.length_cons, strip_ansiF, h]
  have hlen := matchAnsi_length h
  simp only [List.length_cons] at hlen
  rw [strip_ansiF_congr cs.length rest.length rest (by omega) (by omega)]

theorem strip_ansi_cons_none {c : Char} {cs : List Char}
    (h : matchAnsi (c :: cs) = none) :
    strip_ansi (c :: cs) = c :: strip_ansi cs := by
  unfold strip_ansi
  simp only [List.length_cons, strip_ansiF, h]

theorem strip_ansi_cons_ne_esc {c : Char} (cs : List Char) (h : c ≠ '\x1b') :
    strip_ansi (c :: cs) = c :: strip_ansi cs :=
  strip_ansi_cons_none (matchAnsi_ne_esc cs h)

theorem matchAnsi_append {l r : List Char} (m : List Char)
    (h : matchAnsi l = some r) : matchAnsi (l ++ m) = some (r ++ m) := by
  match l with
  | [] => simp [matchAnsi] at h
  | [c] => simp [matchAnsi] at h
  | c :: c1 :: rest =>
    by_cases h1 : c = '\x1b'
    · by_cases h2 : isAnsiSecond c1
      · simp only [matchAnsi, h1, h2, if_true] at h
        cases h3 : (rest.dropWhile isAnsiParam).dropWhile isAnsiInter with
        | nil => rw [h3] at h; simp at h
        | cons f r3 =>
          rw [h3] at h
          by_cases h4 : isAnsiFinal f
          · simp only [h4, if_true, Option.some.injEq] at h
            subst h
            have hne1 : ¬ (rest.dropWhile isAnsiParam).isEmpty := by
              intro he
              rw [List.isEmpty_iff] at he
              rw [he] at h3
              simp at h3
            have hd1 : (rest ++ m).dropWhile isAnsiParam =
                rest.dropWhile isAnsiParam ++ m := by
              rw [List.dropWhile_append, if_neg hne1]
            have hne2 : ¬ ((rest.dropWhile isAnsiParam).dropWhile isAnsiInter).isEmpty := by
              rw [h3]
              simp
            have hd2 : ((rest.dropWhile isAnsiParam) ++ m).dropWhile isAnsiInter =
                f :: (r3 ++ m) := by
              rw [List.dropWhile_append, if_neg hne2, h3]
              simp
            show matchAnsi (c :: c1 :: (rest ++ m)) = some (r3 ++ m)
            simp only [matchAnsi, h1, h2, if_true, hd1, hd2, h4]
          · simp [h4] at h
      · simp [matchAnsi, h1, h2] at h
    · simp [matchAnsi, h1] at h

theorem wcswidth_append {a b : List Char} {wa wb : Nat}
    (ha : wcswidth a = some wa) (hb : wcswidth b = some wb) :
    wcswidth (a ++ b) = some (wa + wb) := by
  induction a generalizing wa with
  | nil =>
    simp [wcswidth] at ha
    subst ha
    simpa using hb
  | cons c cs ih =>
    unfold wcswidth at ha ⊢
    cases hc : wcwidthChar c with
    | none => rw [hc] at ha; simp at ha
    | some w =>
      rw [hc] at ha
      cases hcs : wcswidth cs with
      | none => rw [hcs] at ha; simp at ha
      | some ws =>
        rw [hcs] at ha
        simp only [Option.some.injEq] at ha
        rw [List.cons_append]
        show (match wcwidthChar c with
          | none => none
          | some w =>
            match wcswidth (cs ++ b) with
            | none => none
            | some ws => some (w + ws)) = some (wa + wb)
        rw [hc, ih hcs]
        simp
        omega

theorem wcswidth_replicate_space (n : Nat) :
    wcswidth (List.replicate n ' ') = some n := by
  induction n with
  | zero => rfl
  | succ k ih =>
    rw [List.replicate_succ]
    unfold wcswidth
    rw [show wcwidthChar ' ' = some 1 from by decide, ih]
    simp [Nat.add_comm]

theorem wcswidth_no_esc {l : List Char} {w : Nat} (h : wcswidth l = some w) :
    '\x1b' ∉ l := by
  induction l generalizing w with
  | nil => simp
  | cons c cs ih =>
    unfold wcswidth at h
    cases hc : wcwidthChar c with
    | none => rw [hc] at h; simp at h
    | some wc =>
      rw [hc] at h
      cases hcs : wcswidth cs with
      | none => rw [hcs] at h; simp at h
      | some ws =>
        intro hmem
        rcases List.mem_cons.mp hmem with he | he
        · rw [← he] at hc
          simp [wcwidthChar] at hc
        · exact ih hcs he

theorem strip_ansi_replicate_space_append (n : Nat) (l : List Char) :
    strip_ansi (List.replicate n ' ' ++ l) = List.replicate n ' ' ++ strip_ansi l := by
  induction n with
  | zero => simp
  | succ k ih =>
    rw [List.replicate_succ, List.cons_append,
      strip_ansi_cons_ne_esc _ (by decide), ih]
    simp

theorem strip_ansi_replicate_space (n : Nat) :
    strip_ansi (List.replicate n ' ') = List.replicate n ' ' := by
  have := strip_ansi_replicate_space_append n []
  simpa [strip_ansi_nil] using this

theorem strip_ansi_append_aux (fuel : Nat) :
    ∀ a : List Char, a.length ≤ fuel → '\x1b' ∉ strip_ansi a →
      ∀ m, strip_ansi (a ++ m) = strip_ansi a ++ strip_ansi m := by
  induction fuel with
  | zero =>
    intro a ha _ m
    have : a = [] := by
      cases a with
      | nil => rfl
      | cons c cs => simp at ha
    subst this
    simp [strip_ansi_nil]
  | succ k ih =>
    intro a ha hesc m
    cases a with
    | nil => simp [strip_ansi_nil]
    | cons c cs =>
      cases hm : matchAnsi (c :: cs) with
      | some r =>
        have h1 : strip_ansi (c :: cs) = strip_ansi r := strip_ansi_cons_some hm
        have hlen : r.length < (c :: cs).length := matchAnsi_length hm
        have h2 : matchAnsi (c :: (cs ++ m)) = some (r ++ m) := by
          have := matchAnsi_append m hm
          rwa [List.cons_append] at this
        rw [List.cons_append, strip_ansi_cons_some h2, h1]
        rw [h1] at hesc
        refine ih r ?_ hesc m
        simp at ha hlen
        omega
      | none =>
        have h1 : strip_ansi (c :: cs) = c :: strip_ansi cs := strip_ansi_cons_none hm
        rw [h1] at hesc
        have hc : c ≠ '\x1b' := by
          intro he
          exact hesc (by simp [he])
        have hcs : '\x1b' ∉ strip_ansi cs := by
          intro he
          exact hesc (by simp [he])
        rw [List.cons_append, strip_ansi_cons_ne_esc _ hc,
          ih cs (by simp at ha; omega) hcs m, h1, List.cons_append]

theorem strip_ansi_append {a : List Char} (m : List Char)
    (h : '\x1b' ∉ strip_ansi a) :
    strip_ansi (a ++ m) = strip_ansi a ++ strip_ansi m :=
  strip_ansi_append_aux a.length a (Nat.le_refl _) h m

/-- Claim C5 (amended): for a text of defined display width `W` (after
stripping ANSI escapes, which contribute nothing to the width) and target
width `T` with `W ≤ T`, `center_text` prepends exactly `(T - W) / 2`
spaces (the floor), appends the remaining padding, and the display width
of the result equals `T`. -/
theorem center_text_spec (text : List Char) (T W : Nat)
    (hw : wcswidth (strip_ansi text) = some W) (hWT : W ≤ T) :
    center_text text (T : Int) =
      List.replicate ((T - W) / 2) ' ' ++ text ++
        List.replicate (T - W - (T - W) / 2) ' ' ∧
    wcswidth (strip_ansi (center_text text (T : Int))) = some T := by
  have hvis : pyVisibleLen text = (W : Int) := by
    unfold pyVisibleLen
    rw [hw]
  have hcast : (T : Int) - (W : Int) = ((T - W : Nat) : Int) := by
    omega
  have hpad : ((T : Int) - (W : Int)).fdiv 2 = (((T - W) / 2 : Nat) : Int) := by
    rw [hcast, Int.ofNat_fdiv]
    rfl
  have hdivle : (T - W) / 2 ≤ T - W := Nat.div_le_self _ _
  have hshape : center_text text (T : Int) =
      List.replicate ((T - W) / 2) ' ' ++ text ++
        List.replicate (T - W - (T - W) / 2) ' ' := by
    unfold center_text spacesOf
    rw [hvis, hpad]
    have e1 : ((((T - W) / 2 : Nat) : Int)).toNat = (T - W) / 2 := by omega
    have e2 : ((T : Int) - (((T - W) / 2 : Nat) : Int) - (W : Int)).toNat =
        T - W - (T - W) / 2 := by omega
    rw [e1, e2]
  refine ⟨hshape, ?_⟩
  rw [hshape]
  have hesc : '\x1b' ∉ strip_ansi text := wcswidth_no_esc hw
  have hesc2 : '\x1b' ∉ strip_ansi (text ++ List.replicate (T - W - (T - W) / 2) ' ') := by
    rw [strip_ansi_append _ hesc]
    intro hmem
    rcases List.mem_append.mp hmem with hm | hm
    · exact hesc hm
    · rw [strip_ansi_replicate_space] at hm
      have := List.eq_of_mem_replicate hm
      simp at this
  rw [List.append_assoc, strip_ansi_replicate_space_append,
    strip_ansi_append _ hesc, strip_ansi_replicate_space]
  have h1 := wcswidth_replicate_space ((T - W) / 2)
  have h2 := wcswidth_replicate_space (T - W - (T - W) / 2)
  have h3 := wcswidth_append hw h2
  have h4 := wcswidth_append h1 h3
  rw [← List.append_assoc] at h4
  rw [← List.append_assoc]
  rw [h4]
  congr 1
  omega

theorem length_range_flatMap_map {α : Type} (k m : Nat)
    (f : Nat → Nat → α) :
    ((List.range k).flatMap (fun i => (List.range m).map (f i))).length = k * m := by
  induction k with
  | zero => simp
  | succ n ih =>
    rw [List.range_succ, List.flatMap_append]
    simp [ih, Nat.succ_mul]

theorem generate_gradient_length (colors : List (Nat × Nat × Nat)) (steps : Nat) :
    (generate_gradient colors steps).length =
      (colors.length - 1) * max 1 (steps / (colors.length - 1)) := by
  unfold generate_gradient
  exact length_range_flatMap_map _ _ _

/-- Claim C3: if the operator-supplied new version string is invalid, the
program exits with code 1 before `update_version` is called, so the
manifest content is unchanged and no commit, push, or tag command runs. -/
theorem C3_invalid_version_aborts (env : Env)
    (h : is_valid_version env.versionInput = false) :
    (runMain env).exitCode = 1 ∧ (runMain env).cargoToml = env.cargoToml ∧
    (runMain env).updateCalled = false ∧ (runMain env).ranCommit = false ∧
    (runMain env).ranPush = false ∧ (runMain env).ranTag = false := by
  unfold runMain
  by_cases h1 : env.gitInstalled = false
  · rw [if_pos h1]
    simp [failEarly]
  rw [if_neg h1]
  by_cases h2 : env.cargoInstalled = false
  · rw [if_pos h2]
    simp [failEarly]
  rw [if_neg h2]
  by_cases h3 : ¬ env.branch = "main".toList
  · rw [if_pos h3]
    simp [failEarly]
  rw [if_neg h3]
  by_cases h4 : env.dirty = true
  · rw [if_pos h4]
    simp [failEarly]
  rw [if_neg h4]
  by_cases h5 : (get_current_version env.cargoToml).isSome = false
  · rw [if_pos h5]
    simp [failEarly]
  rw [if_neg h5, if_pos h]
  simp

theorem C3_invalid_version_aborts_witness :
    is_valid_version envC3.versionInput = false ∧
    ((runMain envC3).exitCode = 1 ∧ (runMain envC3).cargoToml = envC3.cargoToml ∧
     (runMain envC3).updateCalled = false ∧ (runMain envC3).ranCommit = false ∧
     (runMain envC3).ranPush = false ∧ (runMain envC3).ranTag = false) :=
  ⟨by decide, C3_invalid_version_aborts envC3 (by decide)⟩

/-- Claim C4: if the uncommitted-changes check fails (dirty tree), the
program exits with code 1 before the version prompt, before validation and
before any call to `update_version`: the manifest is never rewritten and
the check/test commands never run. -/
theorem C4_dirty_tree_aborts (env : Env) (h : env.dirty = true) :
    (runMain env).exitCode = 1 ∧ (runMain env).promptedVersion = false ∧
    (runMain env).updateCalled = false ∧
    (runMain env).cargoToml = env.cargoToml ∧
    (runMain env).ranChecks = false ∧ (runMain env).ranCommit = false := by
  unfold runMain
  by_cases h1 : env.gitInstalled = false
  · rw [if_pos h1]
    simp [failEarly]
  rw [if_neg h1]
  by_cases h2 : env.cargoInstalled = false
  · rw [if_pos h2]
    simp [failEarly]
  rw [if_neg h2]
  by_cases h3 : ¬ env.branch = "main".toList
  · rw [if_pos h3]
    simp [failEarly]
  rw [if_neg h3, if_pos h]
  simp [failEarly]

theorem C4_dirty_tree_aborts_witness :
    envC4.dirty = true ∧
    ((runMain envC4).exitCode = 1 ∧ (runMain envC4).promptedVersion = false ∧
     (runMain envC4).updateCalled = false ∧
     (runMain envC4).cargoToml = envC4.cargoToml ∧
     (runMain envC4).ranChecks = false ∧ (runMain envC4).ranCommit = false) :=
  ⟨by decide, C4_dirty_tree_aborts envC4 (by decide)⟩

/-- Claim C6: the process exit code is 0 exactly when every step succeeds
(tools present, on main, clean tree, parsable manifest version, valid
operator version, check and test pass, user confirms, and all five git
commands succeed), and 1 in every failure case. -/
theorem bool_eq_true_of_not_false {b : Bool} (h : ¬ b = false) : b = true := by
  cases b
  · exact absurd rfl h
  · rfl

theorem bool_eq_false_of_not_true {b : Bool} (h : ¬ b = true) : b = false := by
  cases b
  · rfl
  · exact absurd rfl h

theorem C6_exit_codes (env : Env) :
    ((runMain env).exitCode = 0 ↔ releaseSucceeds env) ∧
    ((runMain env).exitCode = 1 ↔ ¬ releaseSucceeds env) := by
  unfold runMain
  by_cases h1 : env.gitInstalled = false
  · rw [if_pos h1]
    have hns : ¬ releaseSucceeds env := by simp [releaseSucceeds, h1]
    exact ⟨by simp [failEarly, hns], by simp [failEarly, hns]⟩
  rw [if_neg h1]
  by_cases h2 : env.cargoInstalled = false
  · rw [if_pos h2]
    have hns : ¬ releaseSucceeds env := by simp [releaseSucceeds, h2]
    exact ⟨by simp [failEarly, hns], by simp [failEarly, hns]⟩
  rw [if_neg h2]
  by_cases h3 : ¬ env.branch = "main".toList
  · rw [if_pos h3]
    have hns : ¬ releaseSucceeds env := fun hS => h3 hS.2.2.1
    exact ⟨by simp [failEarly, hns], by simp [failEarly, hns]⟩
  rw [if_neg h3]
  by_cases h4 : env.dirty = true
  · rw [if_pos h4]
    have hns : ¬ releaseSucceeds env := by simp [releaseSucceeds, h4]
    exact ⟨by simp [failEarly, hns], by simp [failEarly, hns]⟩
  rw [if_neg h4]
  by_cases h5 : (get_current_version env.cargoToml).isSome = false
  · rw [if_pos h5]
    have hns : ¬ releaseSucceeds env := by simp [releaseSucceeds, h5]
    exact ⟨by simp [failEarly, hns], by simp [failEarly, hns]⟩
  rw [if_neg h5]
  by_cases h6 : is_valid_version env.versionInput = false
  · rw [if_pos h6]
    have hns : ¬ releaseSucceeds env := by simp [releaseSucceeds, h6]
    exact ⟨by simp [hns], by simp [hns]⟩
  rw [if_neg h6]
  by_cases h7 : env.cargoCheckOk = false
  · rw [if_pos h7]
    have hns : ¬ releaseSucceeds env := by simp [releaseSucceeds, h7]
    exact ⟨by simp [hns], by simp [hns]⟩
  rw [if_neg h7]
  by_cases h8 : env.cargoTestOk = false
  · rw [if_pos h8]
    have hns : ¬ releaseSucceeds env := by simp [releaseSucceeds, h8]
    exact ⟨by simp [hns], by simp [hns]⟩
  rw [if_neg h8]
  by_cases h9 : ¬ pyLower env.confirmInput = "y".toList
  · rw [if_pos h9]
    have hns : ¬ releaseSucceeds env := fun hS => h9 hS.2.2.2.2.2.2.2.2.1
    exact ⟨by simp [hns], by simp [hns]⟩
  rw [if_neg h9]
  by_cases h10 : env.gitAddOk = false
  · rw [if_pos h10]
    have hns : ¬ releaseSucceeds env := by simp [releaseSucceeds, h10]
    exact ⟨by simp [hns], by simp [hns]⟩
  rw [if_neg h10]
  by_cases h11 : env.gitCommitOk = false
  · rw [if_pos h11]
    have hns : ¬ releaseSucceeds env := by simp [releaseSucceeds, h11]
    exact ⟨by simp [hns], by simp [hns]⟩
  rw [if_neg h11]
  by_cases h12 : env.gitPushOk = false
  · rw [if_pos h12]
    have hns : ¬ releaseSucceeds env := by simp [releaseSucceeds, h12]
    exact ⟨by simp [hns], by simp [hns]⟩
  rw [if_neg h12]
  by_cases h13 : env.gitTagOk = false
  · rw [if_pos h13]
    have hns : ¬ releaseSucceeds env := by simp [releaseSucceeds, h13]
    exact ⟨by simp [hns], by simp [hns]⟩
  rw [if_neg h13]
  by_cases h14 : env.gitPushTagsOk = false
  · rw [if_pos h14]
    have hns : ¬ releaseSucceeds env := by simp [releaseSucceeds, h14]
    exact ⟨by simp [hns], by simp [hns]⟩
  rw [if_neg h14]
  have hs : releaseSucceeds env :=
    ⟨bool_eq_true_of_not_false h1, bool_eq_true_of_not_false h2, not_not.mp h3,
     bool_eq_false_of_not_true h4, bool_eq_true_of_not_false h5,
     bool_eq_true_of_not_false h6, bool_eq_true_of_not_false h7,
     bool_eq_true_of_not_false h8, not_not.mp h9,
     bool_eq_true_of_not_false h10, bool_eq_true_of_not_false h11,
     bool_eq_true_of_not_false h12, bool_eq_true_of_not_false h13,
     bool_eq_true_of_not_false h14⟩
  exact ⟨by simp [hs], by simp [hs]⟩

/-- Claim C8: when execution reaches `update_version` and a later step
fails (cargo check fails, cargo test fails, or the operator declines the
confirmation), the program exits with code 1, the manifest keeps the newly
written version (no rollback), and no git commit/push/tag command runs. -/
theorem C8_no_rollback (env : Env)
    (h1 : env.gitInstalled = true) (h2 : env.cargoInstalled = true)
    (h3 : env.branch = "main".toList) (h4 : env.dirty = false)
    (h5 : (get_current_version env.cargoToml).isSome = true)
    (h6 : is_valid_version env.versionInput = true)
    (hFail : env.cargoCheckOk = false ∨ env.cargoTestOk = false ∨
      ¬ pyLower env.confirmInput = "y".toList) :
    (runMain env).exitCode = 1 ∧
    (runMain env).cargoToml = update_version env.versionInput env.cargoToml ∧
    (runMain env).updateCalled = true ∧
    (runMain env).ranCommit = false ∧ (runMain env).ranPush = false ∧
    (runMain env).ranTag = false := by
  unfold runMain
  rw [if_neg (show ¬ env.gitInstalled = false by simp [h1]),
    if_neg (show ¬ env.cargoInstalled = false by simp [h2]),
    if_neg (show ¬ ¬ env.branch = "main".toList by simp [h3]),
    if_neg (show ¬ env.dirty = true by simp [h4]),
    if_neg (show ¬ (get_current_version env.cargoToml).isSome = false by simp [h5]),
    if_neg (show ¬ is_valid_version env.versionInput = false by simp [h6])]
  rcases hFail with hf | hf | hf
  · rw [if_pos hf]
    simp
  · by_cases hc : env.cargoCheckOk = false
    · rw [if_pos hc]
      simp
    · rw [if_neg hc, if_pos hf]
      simp
  · by_cases hc : env.cargoCheckOk = false
    · rw [if_pos hc]
      simp
    · rw [if_neg hc]
      by_cases ht : env.cargoTestOk = false
      · rw [if_pos ht]
        simp
      · rw [if_neg ht, if_pos hf]
        simp

theorem C8_no_rollback_witness :
    (envC8.cargoCheckOk = false ∨ envC8.cargoTestOk = false ∨
      ¬ pyLower envC8.confirmInput = "y".toList) ∧
    ((runMain envC8).exitCode = 1 ∧
     (runMain envC8).cargoToml = update_version envC8.versionInput envC8.cargoToml ∧
     (runMain envC8).updateCalled = true ∧
     (runMain envC8).ranCommit = false ∧ (runMain envC8).ranPush = false ∧
     (runMain envC8).ranTag = false) :=
  ⟨by decide, C8_no_rollback envC8 (by decide) (by decide) (by decide) (by decide)
    (by decide) (by decide) (by decide)⟩

/-- Claim C1 counterexample: this text contains the full line
`version = "1.2.3"` (everything after the newline), yet extraction returns
`9.9.9`, captured from the earlier mid-line occurrence inside the first
line, not the line's own value `1.2.3`. -/
theorem C1_counterexample :
    badToml = "x version = \"9.9.9\"".toList ++ '\n' :: "version = \"1.2.3\"".toList ∧
    get_current_version badToml = some ("9.9.9".toList) ∧
    ¬ get_current_version badToml = some ("1.2.3".toList) := by
  decide

/-- Claim C1 (amended): for a text `pre ++ version = "X.Y.Z" ++ post` in
which the line sits at a line start, the pattern matches nowhere in `pre`
(in the original or in the updated text) and nowhere in `post`, extraction
returns X.Y.Z, updating with a well-formed `v1.v2.v3` rewrites exactly the
quoted value, leaves every other byte unchanged, and extraction then
returns the new version. -/
theorem C1_round_trip (pre post X Y Z v1 v2 v3 : List Char)
    (hX : digitRun X) (hY : digitRun Y) (hZ : digitRun Z)
    (hv1 : digitRun v1) (hv2 : digitRun v2) (hv3 : digitRun v3)
    (hpre : pre = [] ∨ ∃ pre0, pre = pre0 ++ ['\n'])
    (hNoPreOld : ∀ j < pre.length,
      matchVA (List.drop j (pre ++ (verLine (X ++ '.' :: Y ++ '.' :: Z) ++ post))) = none)
    (hNoPreNew : ∀ j < pre.length,
      matchVA (List.drop j (pre ++ (verLine (v1 ++ '.' :: v2 ++ '.' :: v3) ++ post))) = none)
    (hNoPost : ∀ j < post.length, matchVA (List.drop j post) = none) :
    get_current_version (pre ++ (verLine (X ++ '.' :: Y ++ '.' :: Z) ++ post)) =
      some (X ++ '.' :: Y ++ '.' :: Z) ∧
    update_version (v1 ++ '.' :: v2 ++ '.' :: v3)
        (pre ++ (verLine (X ++ '.' :: Y ++ '.' :: Z) ++ post)) =
      pre ++ (verLine (v1 ++ '.' :: v2 ++ '.' :: v3) ++ post) ∧
    get_current_version (pre ++ (verLine (v1 ++ '.' :: v2 ++ '.' :: v3) ++ post)) =
      some (v1 ++ '.' :: v2 ++ '.' :: v3) := by
  have hmOld := matchVA_verLine hX hY hZ post
  have hmNew := matchVA_verLine hv1 hv2 hv3 post
  have hStart : atStartAfter true pre = true := by
    rcases hpre with rfl | ⟨pre0, rfl⟩
    · rfl
    · rw [atStartAfter_concat]
      simp
  refine ⟨?_, ?_, ?_⟩
  · show searchVersion (pre ++ (verLine (X ++ '.' :: Y ++ '.' :: Z) ++ post)) = _
    rw [searchVersion_append_of_none hNoPreOld]
    rw [searchVersion_of_match hmOld]
  · show subVersion (v1 ++ '.' :: v2 ++ '.' :: v3) true
        (pre ++ (verLine (X ++ '.' :: Y ++ '.' :: Z) ++ post)) = _
    rw [subVersion_append_copy hNoPreOld true, hStart,
      subVersion_of_match _ hmOld, subVersion_of_no_match hNoPost false]
    simp [verLine]
  · show searchVersion (pre ++ (verLine (v1 ++ '.' :: v2 ++ '.' :: v3) ++ post)) = _
    rw [searchVersion_append_of_none hNoPreNew]
    rw [searchVersion_of_match hmNew]

theorem C1_round_trip_witness :
    digitRun ['1'] ∧
    (get_current_version (preC1 ++ (verLine (['1'] ++ '.' :: ['2'] ++ '.' :: ['3']) ++ postC1)) =
        some (['1'] ++ '.' :: ['2'] ++ '.' :: ['3']) ∧
      update_version (['4'] ++ '.' :: ['5'] ++ '.' :: ['6'])
          (preC1 ++ (verLine (['1'] ++ '.' :: ['2'] ++ '.' :: ['3']) ++ postC1)) =
        preC1 ++ (verLine (['4'] ++ '.' :: ['5'] ++ '.' :: ['6']) ++ postC1) ∧
      get_current_version (preC1 ++ (verLine (['4'] ++ '.' :: ['5'] ++ '.' :: ['6']) ++ postC1)) =
        some (['4'] ++ '.' :: ['5'] ++ '.' :: ['6'])) :=
  ⟨⟨by decide, by decide⟩,
    C1_round_trip preC1 postC1 ['1'] ['2'] ['3'] ['4'] ['5'] ['6']
      ⟨by decide, by decide⟩ ⟨by decide, by decide⟩ ⟨by decide, by decide⟩
      ⟨by decide, by decide⟩ ⟨by decide, by decide⟩ ⟨by decide, by decide⟩
      (Or.inr ⟨"[package]".toList, by decide⟩)
      (by decide) (by decide) (by decide)⟩

/-- Claim C2 counterexample: the claim says validation returns false for a
trailing newline, but Python `$` also matches just before one final
newline, so `1.2.3` followed by a newline is accepted. -/
theorem C2_counterexample : is_valid_version ("1.2.3\n".toList) = true := by
  decide

/-- Claim C2 (amended): validation accepts exactly the strings made of
three dot-separated nonempty digit runs, optionally followed by one
trailing newline, and rejects everything else. -/
theorem C2_version_format (s : List Char) :
    is_valid_version s = true ↔
      ∃ a b c : List Char, digitRun a ∧ digitRun b ∧ digitRun c ∧
        (s = a ++ '.' :: b ++ '.' :: c ∨ s = a ++ '.' :: b ++ '.' :: c ++ ['\n']) :=
  is_valid_version_iff s

/-- Claim C5 counterexample: with target width 1 and text `ab` of display
width 2, Python computes `(1 - 2) // 2 = -1`, the claimed negative number
of leading spaces is impossible, the result is `ab` unchanged and its
rendered width is 2, not the target 1. -/
theorem C5_counterexample :
    wcswidth (strip_ansi ("ab".toList)) = some 2 ∧
    ((1 : Int) - 2).fdiv 2 = -1 ∧
    center_text ("ab".toList) 1 = "ab".toList ∧
    ¬ wcswidth (strip_ansi (center_text ("ab".toList) 1)) = some 1 := by
  decide

theorem center_text_spec_witness :
    wcswidth (strip_ansi ("ab".toList)) = some 2 ∧ 2 ≤ 10 ∧
    (center_text ("ab".toList) ((10 : Nat) : Int) =
        List.replicate ((10 - 2) / 2) ' ' ++ "ab".toList ++
          List.replicate (10 - 2 - (10 - 2) / 2) ' ' ∧
      wcswidth (strip_ansi (center_text ("ab".toList) ((10 : Nat) : Int))) = some 10) :=
  ⟨by decide, by decide, center_text_spec ("ab".toList) 10 2 (by decide) (by decide)⟩

/-- Claim C7: with the manifest at `version = "1.2.3"`, the operator
supplying `1.3.0`, all checks passing and the operator confirming, the run
succeeds: the manifest is rewritten to contain `version = "1.3.0"`, the
commit message contains `1.3.0`, and the created tag is exactly `v1.3.0`. -/
theorem C7_release_scenario (env : Env)
    (h1 : env.gitInstalled = true) (h2 : env.cargoInstalled = true)
    (h3 : env.branch = "main".toList) (h4 : env.dirty = false)
    (h5 : env.cargoToml = demoToml) (h6 : env.versionInput = "1.3.0".toList)
    (h7 : env.cargoCheckOk = true) (h8 : env.cargoTestOk = true)
    (h9 : pyLower env.confirmInput = "y".toList)
    (h10 : env.gitAddOk = true) (h11 : env.gitCommitOk = true)
    (h12 : env.gitPushOk = true) (h13 : env.gitTagOk = true)
    (h14 : env.gitPushTagsOk = true) :
    (runMain env).exitCode = 0 ∧
    (runMain env).cargoToml = demoTomlNew ∧
    (∃ u w, demoTomlNew = u ++ "version = \"1.3.0\"".toList ++ w) ∧
    (runMain env).commitMsg = some (commitMessageFor ("1.3.0".toList)) ∧
    (∃ u w, commitMessageFor ("1.3.0".toList) = u ++ "1.3.0".toList ++ w) ∧
    (runMain env).tagName = some ("v1.3.0".toList) := by
  unfold runMain
  rw [h5, h6]
  rw [if_neg (show ¬ env.gitInstalled = false by simp [h1]),
    if_neg (show ¬ env.cargoInstalled = false by simp [h2]),
    if_neg (show ¬ ¬ env.branch = "main".toList by simp [h3]),
    if_neg (show ¬ env.dirty = true by simp [h4]),
    if_neg (show ¬ (get_current_version demoToml).isSome = false by decide),
    if_neg (show ¬ is_valid_version ("1.3.0".toList) = false by decide),
    if_neg (show ¬ env.cargoCheckOk = false by simp [h7]),
    if_neg (show ¬ env.cargoTestOk = false by simp [h8]),
    if_neg (show ¬ ¬ pyLower env.confirmInput = "y".toList by simp [h9]),
    if_neg (show ¬ env.gitAddOk = false by simp [h10]),
    if_neg (show ¬ env.gitCommitOk = false by simp [h11]),
    if_neg (show ¬ env.gitPushOk = false by simp [h12]),
    if_neg (show ¬ env.gitTagOk = false by simp [h13]),
    if_neg (show ¬ env.gitPushTagsOk = false by simp [h14])]
  refine ⟨rfl, by decide, ?_, rfl, ?_, by decide⟩
  · exact ⟨"[package]\nname = \"git-iris\"\n".toList, "\nedition = \"2021\"\n".toList,
      by decide⟩
  · exact ⟨":rocket: Release version ".toList, [], by decide⟩

theorem C7_release_scenario_witness :
    envC7.cargoToml = demoToml ∧
    ((runMain envC7).exitCode = 0 ∧
     (runMain envC7).cargoToml = demoTomlNew ∧
     (∃ u w, demoTomlNew = u ++ "version = \"1.3.0\"".toList ++ w) ∧
     (runMain envC7).commitMsg = some (commitMessageFor ("1.3.0".toList)) ∧
     (∃ u w, commitMessageFor ("1.3.0".toList) = u ++ "1.3.0".toList ++ w) ∧
     (runMain envC7).tagName = some ("v1.3.0".toList)) :=
  ⟨rfl, C7_release_scenario envC7 rfl rfl rfl rfl rfl rfl rfl rfl (by decide)
    rfl rfl rfl rfl rfl⟩

/-- Claim C9: extraction returns the capture of the first (leftmost) match
in document order, wherever it starts; on a text whose first match is
mid-line, extraction returns that occurrence while update rewrites every
line-start assignment (here both lines, not only the first), so the two
operations can target different occurrences. -/
theorem C9_extraction_vs_update :
    (∀ content : List Char, get_current_version content =
      ((List.range content.length).filterMap
        (fun i => (matchVA (content.drop i)).map (fun t => t.2.1))).head?) ∧
    get_current_version demo9 = some ("9.9.9".toList) ∧
    update_version ("7.7.7".toList) demo9 = demo9sub :=
  ⟨fun content => searchVersion_eq_first content, by decide, by decide⟩

/-- Claim C10 counterexample: for the two-color list `[(1,0,0), (0,0,0)]`
and 2 requested steps, the second emitted color is `(0,0,0)` — exactly the
final color of the segment, although the interpolation parameter never
reaches 1 (here `t = 1/2` and `int(0.5) = 0`). -/
theorem C10_counterexample :
    generate_gradient [(1, 0, 0), (0, 0, 0)] 2 = [(1, 0, 0), (0, 0, 0)] ∧
    (0, 0, 0) ∈ generate_gradient [(1, 0, 0), (0, 0, 0)] 2 ∧
    [(1, 0, 0), (0, 0, 0)].getD 1 (0, 0, 0) = (0, 0, 0) := by
  decide

/-- Claim C10 (amended): the gradient has exactly
`(n - 1) * max 1 (s / (n - 1))` entries (78 for the 7 banner colors with
s = 80, fewer than s), and every entry is an interpolation at parameter
`t = j / steps_per_segment < 1`; the truncated interpolated color can
nevertheless coincide with a segment's final color. -/
theorem C10_gradient (colors : List (Nat × Nat × Nat)) (steps : Nat)
    (_hc : 2 ≤ colors.length) (_hs : 1 ≤ steps) :
    (generate_gradient colors steps).length =
      (colors.length - 1) * max 1 (steps / (colors.length - 1)) ∧
    (generate_gradient GRADIENT_COLORS 80).length = 78 ∧
    ∀ x ∈ generate_gradient colors steps, ∃ i j,
      i < colors.length - 1 ∧ j < max 1 (steps / (colors.length - 1)) ∧
      x = gradColor (colors.getD i (0, 0, 0)) (colors.getD (i + 1) (0, 0, 0))
        j (max 1 (steps / (colors.length - 1))) ∧
      ((j : ℚ) / ((max 1 (steps / (colors.length - 1)) : Nat) : ℚ)) < 1 := by
  refine ⟨generate_gradient_length colors steps, by decide, ?_⟩
  intro x hx
  unfold generate_gradient at hx
  simp only [List.mem_flatMap, List.mem_map, List.mem_range] at hx
  obtain ⟨i, hi, j, hj, hx⟩ := hx
  refine ⟨i, j, hi, hj, hx.symm, ?_⟩
  have hpos : 0 < max 1 (steps / (colors.length - 1)) := by
    have := Nat.le_max_left 1 (steps / (colors.length - 1))
    omega
  rw [div_lt_one (by exact_mod_cast hpos)]
  exact_mod_cast hj

theorem C10_gradient_witness :
    2 ≤ GRADIENT_COLORS.length ∧
    ((generate_gradient GRADIENT_COLORS 80).length =
        (GRADIENT_COLORS.length - 1) * max 1 (80 / (GRADIENT_COLORS.length - 1)) ∧
      (generate_gradient GRADIENT_COLORS 80).length = 78 ∧
      ∀ x ∈ generate_gradient GRADIENT_COLORS 80, ∃ i j,
        i < GRADIENT_COLORS.length - 1 ∧
        j < max 1 (80 / (GRADIENT_COLORS.length - 1)) ∧
        x = gradColor (GRADIENT_COLORS.getD i (0, 0, 0))
          (GRADIENT_COLORS.getD (i + 1) (0, 0, 0))
          j (max 1 (80 / (GRADIENT_COLORS.length - 1))) ∧
        ((j : ℚ) / ((max 1 (80 / (GRADIENT_COLORS.length - 1)) : Nat) : ℚ)) < 1) :=
  ⟨by decide, C10_gradient GRADIENT_COLORS 80 (by decide) (by decide)⟩

end Release
